import Mathlib

/-!
Shallow embedding of the log-field selector (src/unnamed/part_000, the variant
with explicit left/right refinement bounds; src/src/main.ts is the simpler
single-bound snapshot of the same code).

Strings are modelled as `List Char`. JavaScript's `text[i]` (which yields
`undefined` out of range, never equal to a delimiter character) is modelled by
`List.get?`. Calls of `unsafelyUnwrap` on a `Nothing`, and the non-terminating
recursion of `closestBound` with increment +1, are modelled by an outer
`Option`: `none` means the JavaScript call throws or diverges.
-/

/-- The enum `BoundChar` of part_000 lines 11-15: `Bracket = "["`,
`Quote = "\""`, `Space = " "`. -/
inductive BoundChar where
  | Bracket
  | Quote
  | Space
deriving DecidableEq, BEq

/-- The character a `BoundChar` enum value denotes (the enum's string value). -/
def BoundChar.char : BoundChar → Char
  | .Bracket => '['
  | .Quote => '"'
  | .Space => ' '

/-- Class `Bound` (part_000 lines 17-21): a delimiter kind plus the 0-based
ordinal of the occurrence within a line. -/
structure Bound where
  boundary : BoundChar
  index : Nat
deriving DecidableEq, BEq

/-- Loop body of `Bound.column` (part_000 lines 23-32): walk the text from
position `i` with `count` matches of the boundary seen so far; on the
`index`-th match return the position, and return `count` when the text ends. -/
def columnAux (c : Char) (ord : Nat) : List Char → Nat → Nat → Nat
  | [], _, count => count
  | ch :: rest, i, count =>
    if ch = c then
      if ord = count then i else columnAux c ord rest (i + 1) (count + 1)
    else columnAux c ord rest (i + 1) count

/-- `Bound.column(text)` (part_000 lines 23-32, identical in main.ts lines
16-25): the index of the `index`-th occurrence of the boundary character,
falling through to the total occurrence count when there are too few. -/
def Bound.column (b : Bound) (text : List Char) : Nat :=
  columnAux b.boundary.char b.index text 0 0

/-- `Bound.closingCharacter()` (part_000 lines 34-38). -/
def Bound.closingCharacter (b : Bound) : Char :=
  match b.boundary with
  | .Bracket => ']'
  | .Quote => '"'
  | .Space => ' '

/-- `Bound.equals(maybeOther)` (part_000 lines 40-44): `false` on `Nothing`,
kind-and-ordinal equality on `Just`. -/
def Bound.equals (b : Bound) (maybeOther : Option Bound) : Bool :=
  match maybeOther with
  | none => false
  | some other => b.boundary == other.boundary && b.index == other.index

/-- Class `Selection` (part_000 lines 47-56): inclusive range. `Int` fields
because the computed `stop` can be negative (`indexOf` returning -1). -/
structure Selection where
  start : Int
  stop : Int
deriving DecidableEq

/-- `Selection.contains(index)` (part_000 lines 53-55):
`index >= start && index <= stop`. -/
def Selection.contains (s : Selection) (i : Int) : Bool :=
  s.start ≤ i && i ≤ s.stop

/-- Class `Line` (part_000 lines 58-63): text, tags map, optional selection.
The `Map` of tags is modelled as a function from names to optional values. -/
structure Line where
  text : List Char
  tags : String → Option (List Char)
  selection : Option Selection

/-- JavaScript `String.prototype.substring(a, b)`: negative arguments clamp
to 0, arguments beyond the length clamp to the length, and the two are
swapped when out of order. -/
def jsSubstring (text : List Char) (a b : Int) : List Char :=
  let x := min (max a 0).toNat text.length
  let y := min (max b 0).toNat text.length
  (text.take (max x y)).drop (min x y)

/-- JavaScript `String.prototype.indexOf(c)`: first index of `c`, -1 when
absent. -/
def jsIndexOf (text : List Char) (c : Char) : Int :=
  match text.findIdx? (fun ch => ch == c) with
  | some i => (i : Int)
  | none => -1

/-- Class `Bounds` (part_000 lines 70-77): the refinement state, an optional
left and an optional right bound (both `Nothing` after `new Bounds()`). -/
structure Bounds where
  left : Option Bound
  right : Option Bound
deriving DecidableEq

/-- `Bounds.empty()` (part_000 lines 79-81). -/
def Bounds.empty (b : Bounds) : Bool :=
  b.left.isNone && b.right.isNone

/-- The loop over `Object.keys(BoundChar)` inside `closestBound` (part_000
lines 112-119): the delimiter kind whose character sits at `text[index]`,
checked in declaration order Bracket, Quote, Space (at most one can match
since the three characters are distinct); out-of-range access yields
`undefined`, which matches no delimiter. -/
def boundCharAt (text : List Char) (index : Nat) : Option BoundChar :=
  match text.get? index with
  | none => none
  | some ch =>
    if ch = BoundChar.Bracket.char then some .Bracket
    else if ch = BoundChar.Quote.char then some .Quote
    else if ch = BoundChar.Space.char then some .Space
    else none

/-- `Bounds.indexOfBound(text, boundary)` (part_000 lines 126-128):
`text.split(boundary).length - 1`, i.e. the number of occurrences of the
single-character boundary in `text`. -/
def indexOfBound (text : List Char) (c : Char) : Nat :=
  text.count c

/-- `Bounds.closestBound(text, index, increment)` (part_000 lines 111-124),
instrumented with fuel: the recursion `index := index + increment` is not
structurally bounded for `increment = +1`, so `none` (fuel exhausted at every
fuel) witnesses divergence, and `some r` a terminating run with result `r`.
The recursive call is guarded by `index > 0`. -/
def closestBoundFuel (text : List Char) : Nat → Int → Nat → Option (Option Bound)
  | _, _, 0 => none
  | index, increment, fuel + 1 =>
    match boundCharAt text index with
    | some c => some (some ⟨c, indexOfBound (text.take index) c.char⟩)
    | none =>
      if 0 < index then
        closestBoundFuel text ((index : Int) + increment).toNat increment fuel
      else some none

/-- `closestBound` specialised to `increment = -1` (the backward scan used
for the left bound, part_000 line 89): structurally terminating, since the
index decreases to 0. -/
def closestBoundBack (text : List Char) : Nat → Option Bound
  | 0 =>
    match boundCharAt text 0 with
    | some c => some ⟨c, indexOfBound (text.take 0) c.char⟩
    | none => none
  | i + 1 =>
    match boundCharAt text (i + 1) with
    | some c => some ⟨c, indexOfBound (text.take (i + 1)) c.char⟩
    | none => closestBoundBack text i

/-- `closestBound` specialised to `increment = +1` (the forward scan used for
the right bound, part_000 line 107). When no delimiter occurs at or after
`index`, the source recursion runs past the end of the string and never
stops (the `index > 0` guard stays true); that divergence is modelled as
`none`, while `some r` is a terminating run with result `r`. -/
def closestBoundFwd (text : List Char) (index : Nat) : Option (Option Bound) :=
  match boundCharAt text index with
  | some c => some (some ⟨c, indexOfBound (text.take index) c.char⟩)
  | none =>
    if index = 0 then some none
    else if h : index < text.length then closestBoundFwd text (index + 1)
    else none
termination_by text.length - index
decreasing_by simp_wf; omega

/-- The `Selection` built by the `Just` branch of `findSelection` (part_000
lines 134-142): resolve the left bound to a column, then either scan the
remainder for the closing character (no right bound) or resolve the right
bound. -/
def mkSel (left : Bound) (right : Option Bound) (text : List Char) : Selection :=
  let leftColumn := left.column text
  match right with
  | none =>
    ⟨(leftColumn : Int) + 1,
     (leftColumn : Int) + jsIndexOf (text.drop (leftColumn + 1)) left.closingCharacter⟩
  | some r => ⟨(leftColumn : Int) + 1, (r.column text : Int) - 1⟩

/-- `Bounds.findSelection(text)` (part_000 lines 130-143): `Nothing` when the
bounds are empty, otherwise always `Just` a selection. The outer `Option` is
`none` exactly when `unsafelyUnwrap` would throw (left absent, right
present). -/
def Bounds.findSelection (b : Bounds) (text : List Char) : Option (Option Selection) :=
  if b.empty then some none
  else
    match b.left with
    | none => none
    | some left => some (some (mkSel left b.right text))

/-- `Bounds.select(lines)` (part_000 lines 83-85): one optional selection per
line, in order; the outer `Option` propagates an `unsafelyUnwrap` throw. -/
def Bounds.select (b : Bounds) (lines : List Line) : Option (List (Option Selection)) :=
  lines.mapM (fun line => b.findSelection line.text)

/-- `Bounds.findNext(lines, row, column)` (part_000 lines 87-109), applied to
the clicked line's text. `none` models a run that throws (`unsafelyUnwrap`
of an absent left with right present) or diverges (forward scan). In the
branch where the existing left equals the backward-scan result, the source's
`this.left.isJust()` is already true, so only `right.isJust()` is tested. -/
def Bounds.findNext (b : Bounds) (text : List Char) (column : Nat) : Option Bounds :=
  let closestLeft := closestBoundBack text column
  if b.empty then some ⟨closestLeft, none⟩
  else
    match b.left with
    | none => none
    | some left =>
      if left.equals closestLeft = false then some ⟨closestLeft, none⟩
      else if b.right.isSome then some ⟨none, none⟩
      else
        match closestBoundFwd text column with
        | none => none
        | some r => some ⟨closestLeft, r⟩

/-- The per-line tagging step of `App.addTag` (part_000 lines 275-280):
`whenJust(selection, s => line.tags.set(name, text.substring(s.start,
s.stop + 1)))`. -/
def tagLine (name : String) (l : Line) : Option Selection → Line
  | none => l
  | some s =>
    { l with
      tags := fun k =>
        if k = name then some (jsSubstring l.text s.start (s.stop + 1)) else l.tags k }

/-- App state: the line collection and the current refinement bounds. -/
structure AppState where
  lines : List Line
  bounds : Bounds

/-- `App.update` (part_000 lines 244-255): recompute each line's selection
from the new bounds and store the bounds. -/
def App.update (lines : List Line) (bounds : Bounds) : Option AppState :=
  (bounds.select lines).map fun selections =>
    ⟨List.zipWith (fun l s => { l with selection := s }) lines selections, bounds⟩

/-- `App.addTag` (part_000 lines 273-283): tag every line that has a
selection, then update with a fresh empty `Bounds`. -/
def App.addTag (name : String) (lines : List Line) (b : Bounds) : Option AppState :=
  (b.select lines).bind fun selections =>
    App.update (List.zipWith (tagLine name) lines selections) ⟨none, none⟩

/-- The spec's refinement-state invariant: `right` only set when `left` is. -/
def BoundsInv (b : Bounds) : Prop :=
  b.right.isSome = true → b.left.isSome = true

/-- One user-visible transition of the refinement state: a click (part_000
lines 235-241 and 265-271, via `findNext`) or a tag save (`SaveTag.onsubmit`,
part_000 lines 203-210: `addTag` when the bounds are non-empty, a no-op when
they are empty). -/
inductive Step : Bounds → Bounds → Prop where
  | click {b b' : Bounds} (text : List Char) (column : Nat) :
      b.findNext text column = some b' → Step b b'
  | save {b : Bounds} (name : String) (lines : List Line) (st : AppState) :
      b.empty = false → App.addTag name lines b = some st → Step b st.bounds
  | saveEmpty {b : Bounds} : b.empty = true → Step b b

/-- Claim C1: projecting one resolved Bound aligns by ordinal, not offset.
Clicking at the character of `a` in `X [a] Y` resolves the bracket bound of
ordinal 0; the selection it induces on `XX [bb] Y` is exactly the span of
`bb` (columns 4-5, strictly between that line's `[` at 3 and `]` at 6), while
on the first line the same bound selects columns 3-3 — a different absolute
offset. -/
theorem ordinal_alignment_across_lines :
    closestBoundBack "X [a] Y".data 3 = some ⟨.Bracket, 0⟩ ∧
    Bounds.findSelection ⟨some ⟨.Bracket, 0⟩, none⟩ "XX [bb] Y".data = some (some ⟨4, 5⟩) ∧
    jsSubstring "XX [bb] Y".data 4 6 = "bb".data ∧
    "XX [bb] Y".data.get? 3 = some '[' ∧ "XX [bb] Y".data.get? 6 = some ']' ∧
    Bounds.findSelection ⟨some ⟨.Bracket, 0⟩, none⟩ "X [a] Y".data = some (some ⟨3, 3⟩) := by
  decide

/-- Claim C3, counterexample: with the Complete state (left bracket bound,
right space bound) over `[a] b`, a click at column 1 resolves the same left
bound, yet `findNext` returns the empty bounds — not the unchanged pair the
claim asserts. -/
theorem complete_click_not_noop :
    Bound.equals ⟨.Bracket, 0⟩ (closestBoundBack "[a] b".data 1) = true ∧
    Bounds.findNext ⟨some ⟨.Bracket, 0⟩, some ⟨.Space, 0⟩⟩ "[a] b".data 1 = some ⟨none, none⟩ ∧
    Bounds.findNext ⟨some ⟨.Bracket, 0⟩, some ⟨.Space, 0⟩⟩ "[a] b".data 1 ≠
      some ⟨some ⟨.Bracket, 0⟩, some ⟨.Space, 0⟩⟩ := by
  decide

/-- Claim C3, amended: clicking in Complete state when the click resolves to
the same left bound RESETS the bounds to Empty (both absent); it is not a
no-op. -/
theorem complete_click_resets_to_empty (b : Bounds) (text : List Char) (column : Nat)
    (l : Bound) (hl : b.left = some l) (hr : b.right.isSome = true)
    (heq : l.equals (closestBoundBack text column) = true) :
    b.findNext text column = some ⟨none, none⟩ := by
  simp [Bounds.findNext, Bounds.empty, hl, hr, heq]

/-- Witness for the amended C3: a Complete quote-bound state over a quoted
line, clicked inside the same quoted field, comes back Empty. -/
theorem complete_click_resets_witness :
    Bounds.findNext ⟨some ⟨.Quote, 0⟩, some ⟨.Quote, 1⟩⟩ "\"hi\" x".data 1 = some ⟨none, none⟩ :=
  complete_click_resets_to_empty _ _ _ ⟨.Quote, 0⟩ rfl rfl (by decide)

/-- Claim C4, counterexample: from the LeftOnly state, a click whose backward
scan finds no delimiter (text `ab`, column 1) does not leave the state
unchanged — `findNext` returns the empty bounds, dropping the left bound. -/
theorem noBound_click_not_noop :
    closestBoundBack "ab".data 1 = none ∧
    Bounds.findNext ⟨some ⟨.Bracket, 0⟩, none⟩ "ab".data 1 = some ⟨none, none⟩ ∧
    Bounds.findNext ⟨some ⟨.Bracket, 0⟩, none⟩ "ab".data 1 ≠ some ⟨some ⟨.Bracket, 0⟩, none⟩ := by
  decide

/-- Claim C4, amended: a click whose backward scan finds no delimiter always
yields the Empty bounds — unchanged when the state was already Empty, but a
reset (not a no-op) from LeftOnly or Complete. Stated for every state
satisfying the code's reachable-state shape (left absent implies right
absent). -/
theorem noBound_click_yields_empty (b : Bounds) (text : List Char) (column : Nat)
    (h : closestBoundBack text column = none) (hinv : b.left = none → b.right = none) :
    b.findNext text column = some ⟨none, none⟩ := by
  cases hl : b.left with
  | none => simp [Bounds.findNext, Bounds.empty, hl, hinv hl, h]
  | some l => simp [Bounds.findNext, Bounds.empty, hl, h, Bound.equals]

/-- Witness for the amended C4: from the Empty state, a no-delimiter click on
`xy` leaves the bounds Empty. -/
theorem noBound_click_yields_empty_witness :
    Bounds.findNext ⟨none, none⟩ "xy".data 1 = some ⟨none, none⟩ :=
  noBound_click_yields_empty ⟨none, none⟩ _ _ (by decide) (fun _ => rfl)

/-- Claim C5: with a left bracket bound and no right bound on the unterminated
line `[ab`, the code does NOT yield "no selection": `findSelection` returns
`Just` a corrupt range with negative, inverted stop (start 1, stop -1). -/
theorem malformed_field_inverted_selection :
    Bounds.findSelection ⟨some ⟨.Bracket, 0⟩, none⟩ "[ab".data = some (some ⟨1, -1⟩) ∧
    (-1 : Int) < 1 := by
  decide

/-- Claim C6: projecting a bracket bound (ordinal 0) over `[a]` and `xy`: the
line `xy` has zero occurrences of `[` (fewer than ordinal + 1 = 1), yet the
code still produces `Just` a corrupt selection for it (start 1, stop -1)
instead of no selection; the well-formed line gets its normal span. -/
theorem underaligned_line_gets_selection :
    Bounds.select ⟨some ⟨.Bracket, 0⟩, none⟩
      [⟨"[a]".data, fun _ => none, none⟩, ⟨"xy".data, fun _ => none, none⟩]
      = some [some ⟨1, 1⟩, some ⟨1, -1⟩] ∧
    "xy".data.count '[' < 0 + 1 := by
  decide

/-- Claim C10: on an inverted range (stop < start), `Selection.contains` is
false at every index — a degenerate range never reports any character as
selected. -/
theorem inverted_selection_contains_none (s : Selection) (h : s.stop < s.start) (i : Int) :
    s.contains i = false := by
  simp only [Selection.contains, Bool.and_eq_false_iff, decide_eq_false_iff_not]
  omega

/-- Witness for C10 at the concrete inverted range (1, 0) and index 5. -/
theorem inverted_selection_contains_none_witness :
    (0 : Int) < 1 ∧ Selection.contains ⟨1, 0⟩ 5 = false :=
  ⟨by decide, inverted_selection_contains_none ⟨1, 0⟩ (by decide) 5⟩

/-- Generalisation of C2 over the loop accumulators of `columnAux`: when at
least `ord - count + 1` further occurrences of `c` remain, the loop stops at
the position (offset against `i`) of the occurrence numbered `ord - count`
among the remaining text. -/
lemma columnAux_spec (c : Char) (ord : Nat) :
    ∀ (text : List Char) (i count : Nat), count ≤ ord → ord - count < text.count c →
    ∃ j, columnAux c ord text i count = i + j ∧ text.get? j = some c ∧
      (text.take j).count c = ord - count := by
  intro text
  induction text with
  | nil =>
    intro i count hle hlt
    simp [List.count_nil] at hlt
  | cons ch rest ih =>
    intro i count hle hlt
    by_cases hc : ch = c
    · by_cases hoc : ord = count
      · refine ⟨0, ?_, ?_, ?_⟩
        · simp [columnAux, hc, hoc]
        · simp [hc]
        · simp
          omega
      · have hcnt1 : (ch :: rest).count c = rest.count c + 1 := by
          rw [hc, List.count_cons_self]
        have hle1 : count + 1 ≤ ord := by omega
        have hlt1 : ord - (count + 1) < rest.count c := by omega
        obtain ⟨j, hj, hget, hcnt⟩ := ih (i + 1) (count + 1) hle1 hlt1
        refine ⟨j + 1, ?_, ?_, ?_⟩
        · simp only [columnAux, if_pos hc, if_neg hoc]
          rw [hj]
          omega
        · simpa using hget
        · rw [List.take_succ_cons, hc, List.count_cons_self, hcnt]
          omega
    · have hcnt1 : (ch :: rest).count c = rest.count c := by
        rw [List.count_cons_of_ne (fun hcc => hc hcc.symm)]
      have hlt1 : ord - count < rest.count c := by omega
      obtain ⟨j, hj, hget, hcnt⟩ := ih (i + 1) count hle hlt1
      refine ⟨j + 1, ?_, ?_, ?_⟩
      · simp only [columnAux, if_neg hc]
        rw [hj]
        omega
      · simpa using hget
      · rw [List.take_succ_cons, List.count_cons_of_ne (fun hcc => hc hcc.symm), hcnt]

/-- Claim C2: whenever the text holds at least `ord + 1` occurrences of the
kind's character, `Bound.column` returns exactly the index of the `ord`-th
(0-based) occurrence: the character at the returned index is the kind's
character and exactly `ord` occurrences precede it. -/
theorem column_nth_occurrence (k : BoundChar) (ord : Nat) (text : List Char)
    (h : ord < text.count k.char) :
    text.get? (Bound.column ⟨k, ord⟩ text) = some k.char ∧
    (text.take (Bound.column ⟨k, ord⟩ text)).count k.char = ord := by
  obtain ⟨j, hj, hget, hcnt⟩ :=
    columnAux_spec k.char ord text 0 0 (Nat.zero_le _) (by simpa using h)
  have hcol : Bound.column ⟨k, ord⟩ text = j := by simpa [Bound.column] using hj
  rw [hcol]
  exact ⟨hget, by simpa using hcnt⟩

/-- Witness for C2: the bracket in `a[b]` (ordinal 0) is found at index 1. -/
theorem column_nth_occurrence_witness :
    0 < "a[b]".data.count BoundChar.Bracket.char ∧
    ("a[b]".data.get? (Bound.column ⟨.Bracket, 0⟩ "a[b]".data) = some BoundChar.Bracket.char ∧
     ("a[b]".data.take (Bound.column ⟨.Bracket, 0⟩ "a[b]".data)).count BoundChar.Bracket.char
       = 0) :=
  ⟨by decide, column_nth_occurrence .Bracket 0 "a[b]".data (by decide)⟩

/-- Fuel `index + 1` always suffices for the backward scan: the fuel-indexed
`closestBound` with increment -1 terminates with the value of the structural
backward scan. -/
lemma closestBoundFuel_back_eq (text : List Char) :
    ∀ index : Nat, closestBoundFuel text index (-1) (index + 1) =
      some (closestBoundBack text index) := by
  intro index
  induction index with
  | zero =>
    cases hb : boundCharAt text 0 with
    | none => simp [closestBoundFuel, closestBoundBack, hb]
    | some c => simp [closestBoundFuel, closestBoundBack, hb]
  | succ i ih =>
    cases hb : boundCharAt text (i + 1) with
    | some c => simp [closestBoundFuel, closestBoundBack, hb]
    | none =>
      have harg : (((i + 1 : Nat) : Int) + (-1)).toNat = i := by omega
      simp only [closestBoundFuel, closestBoundBack, hb]
      rw [if_pos (Nat.succ_pos i), harg]
      exact ih

/-- At every index of `[a` from 1 on, no delimiter character occurs (index 1
holds `a`; larger indices are past the end). -/
lemma boundCharAt_bracket_a : ∀ index : Nat, 1 ≤ index →
    boundCharAt "[a".data index = none := by
  intro index h
  match index with
  | 0 => omega
  | 1 => decide
  | n + 2 =>
    have hg : "[a".data.get? (n + 2) = none := by
      show (['[', 'a'] : List Char).get? (n + 2) = none
      cases n <;> rfl
    simp [boundCharAt, hg]

/-- No fuel makes the forward scan on `[a` from index 1 terminate: the source
recursion diverges there (the `index > 0` guard never fails and the index
runs past the end of the string). -/
lemma closestBoundFuel_fwd_diverges :
    ∀ fuel index : Nat, 1 ≤ index → closestBoundFuel "[a".data index 1 fuel = none := by
  intro fuel
  induction fuel with
  | zero =>
    intro index h
    rfl
  | succ f ih =>
    intro index h
    have hb := boundCharAt_bracket_a index h
    have harg : ((index : Int) + 1).toNat = index + 1 := by omega
    simp only [closestBoundFuel, hb]
    rw [if_pos (by omega : 0 < index), harg]
    exact ih (index + 1) (by omega)

/-- Claim C7: the backward scan (direction -1) terminates for every text and
starting index — fuel `index + 1` suffices and yields the structural
backward result (no bound when index 0 is reached without a match) — but the
forward scan (direction +1) does NOT always terminate: on text `[a` from
index 1 it inspects indices past the end of the string and no amount of fuel
produces a result. -/
theorem closestBound_scan_termination :
    (∀ (text : List Char) (index : Nat),
      closestBoundFuel text index (-1) (index + 1) = some (closestBoundBack text index)) ∧
    (∀ fuel : Nat, closestBoundFuel "[a".data 1 1 fuel = none) :=
  ⟨fun text index => closestBoundFuel_back_eq text index,
   fun fuel => closestBoundFuel_fwd_diverges fuel 1 le_rfl⟩

/-- With a present left bound, `findSelection` always terminates normally and
always returns `Just` a selection (the one of `mkSel`). -/
lemma findSelection_left_some (b : Bounds) (l : Bound) (hl : b.left = some l)
    (text : List Char) :
    b.findSelection text = some (some (mkSel l b.right text)) := by
  simp [Bounds.findSelection, Bounds.empty, hl]

/-- With a present left bound, `select` maps every line to `Just` the
selection computed against that line's own text. -/
lemma select_left_some (b : Bounds) (l : Bound) (hl : b.left = some l) :
    ∀ lines : List Line,
      b.select lines = some (lines.map fun ln => some (mkSel l b.right ln.text)) := by
  intro lines
  induction lines with
  | nil => rfl
  | cons ln rest ih =>
    rw [Bounds.select, List.mapM_cons, findSelection_left_some b l hl]
    rw [Bounds.select] at ih
    rw [ih]
    rfl

/-- With empty bounds, `select` yields no selection for any line. -/
lemma select_empty_bounds : ∀ lines : List Line,
    Bounds.select ⟨none, none⟩ lines = some (lines.map fun _ => none) := by
  intro lines
  induction lines with
  | nil => rfl
  | cons ln rest ih =>
    rw [Bounds.select] at ih ⊢
    rw [List.mapM_cons, ih]
    rfl

/-- Zipping a list against its own image collapses to a single map. -/
lemma zipWith_map_right_self {α β γ : Type} (g : α → β → γ) (f : α → β) :
    ∀ ls : List α, List.zipWith g ls (ls.map f) = ls.map fun x => g x (f x) := by
  intro ls
  induction ls with
  | nil => rfl
  | cons a as ih => simp [ih]

/-- Storing absent selections into every line collapses to a single map. -/
lemma zipWith_selection_none : ∀ ls : List Line,
    List.zipWith (fun l s => { l with selection := s }) ls (ls.map fun _ => none) =
      ls.map fun l => { l with selection := none } := by
  intro ls
  induction ls with
  | nil => rfl
  | cons a as ih => simp only [List.map_cons, List.zipWith_cons_cons, ih]

/-- Updating with a fresh empty `Bounds` clears every selection and stores
the empty bounds. -/
lemma update_empty_bounds (ls : List Line) :
    App.update ls ⟨none, none⟩ =
      some ⟨ls.map fun l => { l with selection := none }, ⟨none, none⟩⟩ := by
  rw [App.update, select_empty_bounds, Option.map_some', zipWith_selection_none]

/-- Claim C8: with a non-empty bounds (left bound present) `addTag` succeeds;
each line that received a selection gets `tags name` set to the inclusive
slice `substring(start, stop + 1)` of its own text while all other tag names
keep their values, a line whose selection is absent is returned unchanged by
the tagging step, afterwards the bounds are reset to Empty, and re-assigning
the same name overwrites any previous value. -/
theorem addTag_spec (name : String) (lines : List Line) (b : Bounds) (l : Bound)
    (hl : b.left = some l) :
    App.addTag name lines b =
      some ⟨lines.map fun ln : Line =>
              { tagLine name ln (some (mkSel l b.right ln.text)) with selection := none },
            ⟨none, none⟩⟩ ∧
    (∀ (ln : Line) (s : Selection), (tagLine name ln (some s)).tags name =
      some (jsSubstring ln.text s.start (s.stop + 1))) ∧
    (∀ (ln : Line) (s : Selection) (k : String), k ≠ name →
      (tagLine name ln (some s)).tags k = ln.tags k) ∧
    (∀ ln : Line, tagLine name ln none = ln) ∧
    (∀ (ln : Line) (s : Selection) (prev : List Char),
      (tagLine name { ln with tags := fun k => if k = name then some prev else ln.tags k }
        (some s)).tags name = some (jsSubstring ln.text s.start (s.stop + 1))) := by
  refine ⟨?_, ?_, ?_, ?_, ?_⟩
  · rw [App.addTag, select_left_some b l hl lines, Option.some_bind,
      zipWith_map_right_self, update_empty_bounds]
    simp [List.map_map]
  · intro ln s
    simp [tagLine]
  · intro ln s k hk
    simp [tagLine, hk]
  · intro ln
    rfl
  · intro ln s prev
    simp [tagLine]

/-- Witness for C8 at a left bracket bound over the empty batch: `addTag`
returns the untouched (empty) line list with the bounds reset to Empty. -/
theorem addTag_spec_witness :
    App.addTag "t" [] ⟨some ⟨.Bracket, 0⟩, none⟩ = some ⟨[], ⟨none, none⟩⟩ :=
  (addTag_spec "t" [] ⟨some ⟨.Bracket, 0⟩, none⟩ ⟨.Bracket, 0⟩ rfl).1

/-- Every successful `findNext` transition lands in a state whose right bound
is present only when the left bound is. -/
lemma findNext_preserves_inv (b b' : Bounds) (text : List Char) (column : Nat)
    (h : b.findNext text column = some b') : BoundsInv b' := by
  simp only [Bounds.findNext] at h
  split at h
  · injection h with h
    rw [← h]
    intro hr
    simp at hr
  · split at h
    · cases h
    · rename_i left hleft
      split at h
      · injection h with h
        rw [← h]
        intro hr
        simp at hr
      · rename_i heq
        split at h
        · injection h with h
          rw [← h]
          intro hr
          simp at hr
        · split at h
          · cases h
          · rename_i r hf
            injection h with h
            rw [← h]
            cases hcb : closestBoundBack text column with
            | none =>
              rw [hcb] at heq
              exact absurd rfl heq
            | some lb =>
              intro _
              rfl

/-- A successful `addTag` always stores the fresh empty bounds. -/
lemma addTag_bounds (name : String) (lines : List Line) (b : Bounds) (st : AppState)
    (h : App.addTag name lines b = some st) : st.bounds = ⟨none, none⟩ := by
  rw [App.addTag] at h
  cases hs : b.select lines with
  | none =>
    rw [hs] at h
    cases h
  | some sels =>
    rw [hs, Option.some_bind, update_empty_bounds] at h
    injection h with h
    rw [← h]

/-- Claim C9: from the initial Bounds (both absent), every state reachable by
any sequence of click transitions (`findNext`) and tag saves keeps the
invariant that the right bound is present only when the left bound is. -/
theorem bounds_invariant_reachable (b : Bounds)
    (h : Relation.ReflTransGen Step ⟨none, none⟩ b) : BoundsInv b := by
  induction h with
  | refl =>
    intro hr
    simp at hr
  | tail _ hstep ih =>
    cases hstep with
    | click text column hn => exact findNext_preserves_inv _ _ text column hn
    | save name lines st hne hadd =>
      rw [addTag_bounds name lines _ st hadd]
      intro hr
      simp at hr
    | saveEmpty _ => exact ih

/-- Witness for C9: the LeftOnly state produced by one click on `[` is
reachable and satisfies the invariant. -/
theorem bounds_invariant_reachable_witness :
    BoundsInv ⟨some ⟨.Bracket, 0⟩, none⟩ :=
  bounds_invariant_reachable ⟨some ⟨.Bracket, 0⟩, none⟩
    (Relation.ReflTransGen.single
      (@Step.click ⟨none, none⟩ ⟨some ⟨.Bracket, 0⟩, none⟩ "[".data 0 (by decide)))
